import Mathlib

/-!
Verification of the case-conversion utilities of this repository.

The repository contains four conversion functions:
* `toKebabCase` (src/chain_prompt.js) — kebab-case with camel/acronym and
  letter–digit splitting, Unicode-aware special-character removal;
* `camelCase` and `dotCase` (src/unnamed/part_001) — separator-based
  tokenization, ASCII-only cleanup, no camel-boundary splitting;
* `to_snake_case` (src/unnamed/part_000, Python) — underscore marking of
  uppercase runs.

Strings are modelled as lists of Unicode code points (`List Nat`), and each
regex step of the sources is translated into a structurally recursive list
transformation.  The `[a-z]`, `[A-Z]`, `[0-9]` regex classes are exact; the
Unicode-aware classes `\p{L}`, `\p{N}` and the locale maps `toLowerCase` /
`toUpperCase` / `str.lower` are modelled over the character repertoire the
repository exercises (ASCII plus the Cyrillic alphabet); all other code
points fall outside the modelled letter classes and are left unchanged by
the case maps, exactly as the ASCII-only regex classes treat them.
-/

/-- A JavaScript/Python string, as its list of Unicode code points. -/
abbrev JStr := List Nat

/-- Code points of a Lean string literal, used to write concrete inputs. -/
def S (s : String) : JStr := s.data.map Char.toNat

/-- Regex class `[a-z]`. -/
def asciiLower (c : Nat) : Bool := decide (97 ≤ c ∧ c ≤ 122)

/-- Regex class `[A-Z]`. -/
def asciiUpper (c : Nat) : Bool := decide (65 ≤ c ∧ c ≤ 90)

/-- Regex class `[0-9]`. -/
def digit (c : Nat) : Bool := decide (48 ≤ c ∧ c ≤ 57)

/-- Regex class `[a-zA-Z]`. -/
def asciiLetter (c : Nat) : Bool := asciiLower c || asciiUpper c

/-- Regex class `[a-z0-9]`. -/
def lowerDigit (c : Nat) : Bool := asciiLower c || digit c

/-- Regex class `[a-zA-Z0-9]`. -/
def asciiAlnum (c : Nat) : Bool := asciiLetter c || digit c

/-- Lowercase Cyrillic letters а–я and ё. -/
def cyrLower (c : Nat) : Bool := decide ((1072 ≤ c ∧ c ≤ 1103) ∨ c = 1105)

/-- Uppercase Cyrillic letters А–Я and Ё. -/
def cyrUpper (c : Nat) : Bool := decide ((1040 ≤ c ∧ c ≤ 1071) ∨ c = 1025)

/-- Model of the Unicode regex class `\p{L}` over the repertoire the
repository exercises: ASCII and Cyrillic letters. -/
def uniLetter (c : Nat) : Bool := asciiLower c || asciiUpper c || cyrLower c || cyrUpper c

/-- Model of the Unicode regex class `\p{N}` over the exercised repertoire:
the decimal digits. -/
def uniNum (c : Nat) : Bool := digit c

/-- The ECMAScript whitespace class `\s` (also the character set removed by
`String.prototype.trim`): tab, LF, VT, FF, CR, space, NBSP, Ogham space,
the ` `–` ` spaces, LS, PS, NNBSP, MMSP, ideographic space, BOM. -/
def jsWs (c : Nat) : Bool :=
  decide (c = 9 ∨ c = 10 ∨ c = 11 ∨ c = 12 ∨ c = 13 ∨ c = 32 ∨ c = 160 ∨ c = 5760 ∨
    (8192 ≤ c ∧ c ≤ 8202) ∨ c = 8232 ∨ c = 8233 ∨ c = 8239 ∨ c = 8287 ∨ c = 12288)

/-- The Python `re` whitespace class `\s` on `str` patterns: the ASCII
whitespace, the file/group/record/unit separators, space, NEL, NBSP and the
Unicode space characters. -/
def pyWs (c : Nat) : Bool :=
  decide (c = 9 ∨ c = 10 ∨ c = 11 ∨ c = 12 ∨ c = 13 ∨ (28 ≤ c ∧ c ≤ 32) ∨ c = 133 ∨
    c = 160 ∨ c = 5760 ∨ (8192 ≤ c ∧ c ≤ 8202) ∨ c = 8232 ∨ c = 8233 ∨ c = 8239 ∨
    c = 8287 ∨ c = 12288)

/-- `String.prototype.toLowerCase`, code-point-wise over the exercised
repertoire: `A`–`Z` and `А`–`Я`/`Ё` map to their lowercase counterparts,
everything else is unchanged. -/
def jsToLower (c : Nat) : Nat :=
  if 65 ≤ c ∧ c ≤ 90 then c + 32
  else if c = 1025 then 1105
  else if 1040 ≤ c ∧ c ≤ 1071 then c + 32
  else c

/-- `String.prototype.toUpperCase`, code-point-wise over the exercised
repertoire. -/
def jsToUpper (c : Nat) : Nat :=
  if 97 ≤ c ∧ c ≤ 122 then c - 32
  else if c = 1105 then 1025
  else if 1072 ≤ c ∧ c ≤ 1103 then c - 32
  else c

/-- Python `str.lower`, which agrees with the JavaScript map on the
exercised repertoire. -/
def pyToLower (c : Nat) : Nat := jsToLower c

/-- `String.prototype.trim`: drop leading and trailing `\s` characters. -/
def jsTrim (l : JStr) : JStr := ((l.dropWhile jsWs).reverse.dropWhile jsWs).reverse

/-- `replace(/[class]+/g, r)` for a single replacement character `r`:
every maximal run of characters of the class collapses to one `r`.  The
Boolean argument records whether the previous character belonged to the
class (i.e. whether a run is open); the source regexes are applied with it
set to `false`. -/
def collapseRuns (p : Nat → Bool) (r : Nat) : Bool → JStr → JStr
  | _, [] => []
  | inRun, c :: rest =>
    if p c then
      if inRun then collapseRuns p r true rest
      else r :: collapseRuns p r true rest
    else c :: collapseRuns p r false rest

/-- `replace(/(X)(Y)/g, "$1 $2")` for one-character classes `X` and `Y`:
a space is inserted between every matched pair, scanning left to right and
resuming after each match, exactly as a global regex does. -/
def insPair (p q : Nat → Bool) : JStr → JStr
  | [] => []
  | [c] => [c]
  | c1 :: c2 :: rest =>
    if p c1 && q c2 then c1 :: 32 :: c2 :: insPair p q rest
    else c1 :: insPair p q (c2 :: rest)

/-- `replace(/([A-Z]+)([A-Z][a-z0-9]+)/g, "$1 $2")`.  The replacement
inserts one space per maximal uppercase run of length at least two that is
directly followed by an `[a-z0-9]` character, between the last two
uppercase letters of the run; equivalently, a space goes between `c1` and
`c2` of every window `c1 c2 c3` with `c1 c2` uppercase and `c3` in
`[a-z0-9]`.  No two such windows overlap on the inserted position, and no
window matches inside the `[a-z0-9]+` tail a match consumes, so the
window-by-window scan below reproduces the global regex. -/
def insAcronym : JStr → JStr
  | c1 :: c2 :: c3 :: rest =>
    if asciiUpper c1 && asciiUpper c2 && lowerDigit c3 then
      c1 :: 32 :: insAcronym (c2 :: c3 :: rest)
    else c1 :: insAcronym (c2 :: c3 :: rest)
  | l => l

/-- `split(/\s+/u).filter(Boolean)`: the maximal runs of non-whitespace
characters, in order. -/
def wsTokens : JStr → List JStr
  | [] => []
  | [c] => if jsWs c then [] else [[c]]
  | c1 :: c2 :: rest =>
    if jsWs c1 then wsTokens (c2 :: rest)
    else if jsWs c2 then [c1] :: wsTokens rest
    else
      match wsTokens (c2 :: rest) with
      | t :: ts => (c1 :: t) :: ts
      | [] => [[c1]]

/-- `Array.prototype.join` with a one-character separator. -/
def joinSep (sep : Nat) : List JStr → JStr
  | [] => []
  | [w] => w
  | w :: ws => w ++ sep :: joinSep sep ws

/-- `String.prototype.split` with a one-character separator: splits at
every occurrence, keeping empty pieces, as the JavaScript method does. -/
def splitOnChar (a : Nat) : JStr → List JStr
  | [] => [[]]
  | c :: rest =>
    if c = a then [] :: splitOnChar a rest
    else
      match splitOnChar a rest with
      | w :: ws => (c :: w) :: ws
      | [] => [[c]]

/-- The character class `[_\-\s]` of the kebab-case separator regex. -/
def kebabSep (c : Nat) : Bool := c == 95 || c == 45 || jsWs c

/-- The character class kept by `replace(/[^\p{L}\p{N}\s]+/gu, '')`. -/
def kebabKeep (c : Nat) : Bool := uniLetter c || uniNum c || jsWs c

/-- `toKebabCase` of src/chain_prompt.js on string input: separator
normalization, lower/digit→upper split, acronym split, letter↔digit
splits, Unicode-aware special-character removal, then split on whitespace,
join with hyphens and lowercase. -/
def toKebabCaseString (input : JStr) : JStr :=
  if jsTrim input = [] then []
  else
    let s1 := collapseRuns kebabSep 32 false input
    let s2 := insPair lowerDigit asciiUpper s1
    let s3 := insAcronym s2
    let s4 := insPair asciiLetter digit s3
    let s5 := insPair digit asciiLetter s4
    let s6 := s5.filter kebabKeep
    (joinSep 45 (wsTokens s6)).map jsToLower

/-- The character class `[\s\-_\.]` of the camelCase/dotCase separator
regex. -/
def camelSep (c : Nat) : Bool := jsWs c || c == 45 || c == 95 || c == 46

/-- The character class kept by `replace(/[^a-zA-Z0-9 ]+/g, '')`. -/
def camelKeep (c : Nat) : Bool := asciiLetter c || digit c || c == 32

/-- The `cleaned` string shared by `camelCase` and `dotCase` in
src/unnamed/part_001: separators to spaces, non-ASCII-alphanumerics
removed, then trimmed. -/
def cleanedCamel (input : JStr) : JStr :=
  jsTrim ((collapseRuns camelSep 32 false input).filter camelKeep)

/-- `word.charAt(0).toUpperCase() + word.slice(1).toLowerCase()`. -/
def capWord : JStr → JStr
  | [] => []
  | c :: rest => jsToUpper c :: rest.map jsToLower

/-- The camelCase assembler: the first word lowercased whole, every later
word capitalized, concatenated without separator. -/
def camelJoin : List JStr → JStr
  | [] => []
  | w :: ws => w.map jsToLower ++ (ws.map capWord).flatten

/-- `camelCase` of src/unnamed/part_001 on string input. -/
def camelCaseString (input : JStr) : JStr :=
  if jsTrim input = [] then []
  else
    let cleaned := cleanedCamel input
    if cleaned = [] then []
    else camelJoin (splitOnChar 32 cleaned)

/-- `dotCase` of src/unnamed/part_001 on string input: the same cleanup,
all words lowercased and joined with dots. -/
def dotCaseString (input : JStr) : JStr :=
  if jsTrim input = [] then []
  else
    let cleaned := cleanedCamel input
    if cleaned = [] then []
    else joinSep 46 ((splitOnChar 32 cleaned).map (List.map jsToLower))

/-- `re.sub(r'([A-Z]+)', r'_\1', text)`: an underscore in front of every
maximal uppercase run, i.e. in front of every uppercase letter not
preceded by an uppercase letter.  The Boolean argument records whether the
previous character was uppercase; the source applies it with `false`. -/
def snakeUpperMark : Bool → JStr → JStr
  | _, [] => []
  | prevUp, c :: rest =>
    if asciiUpper c then
      if prevUp then c :: snakeUpperMark true rest
      else 95 :: c :: snakeUpperMark true rest
    else c :: snakeUpperMark false rest

/-- The character class `[\s\-]` of the snake_case separator regex. -/
def pySep (c : Nat) : Bool := pyWs c || c == 45

/-- `str.strip('_')`: drop leading and trailing underscores. -/
def stripUnderscores (l : JStr) : JStr :=
  ((l.dropWhile (· == 95)).reverse.dropWhile (· == 95)).reverse

/-- `to_snake_case` of src/unnamed/part_000 (Python): mark uppercase runs
with underscores, collapse whitespace/hyphen runs to underscores,
lowercase, strip outer underscores. -/
def to_snake_case (text : JStr) : JStr :=
  stripUnderscores ((collapseRuns pySep 95 false (snakeUpperMark false text)).map pyToLower)

/-- A JavaScript runtime value, by `typeof`-relevant shape: the argument a
caller can pass to the conversion functions. -/
inductive JSValue where
  | str (s : JStr)
  | num (n : Int)
  | boolean (b : Bool)
  | nullV
  | undefinedV
  | object

/-- A thrown JavaScript error; the conversions only ever construct
`TypeError` with a message. -/
inductive JSError where
  | typeError (msg : JStr)

/-- The message of the type-check error thrown by every converter. -/
def typeErrorMessage : JStr := S "Input must be a string"

/-- `toKebabCase` as called on an arbitrary runtime value:
`typeof input !== 'string'` throws, strings run the pure pipeline. -/
def toKebabCase : JSValue → Except JSError JStr
  | .str s => .ok (toKebabCaseString s)
  | _ => .error (.typeError typeErrorMessage)

/-- `camelCase` on an arbitrary runtime value. -/
def camelCase : JSValue → Except JSError JStr
  | .str s => .ok (camelCaseString s)
  | _ => .error (.typeError typeErrorMessage)

/-- `dotCase` on an arbitrary runtime value. -/
def dotCase : JSValue → Except JSError JStr
  | .str s => .ok (dotCaseString s)
  | _ => .error (.typeError typeErrorMessage)

/-- Auxiliary verification predicate: characters that survive the kebab
pipeline inside tokens after lowercasing — lowercase ASCII letters,
digits, lowercase Cyrillic letters. -/
def lowAl (c : Nat) : Bool := asciiLower c || digit c || cyrLower c

/-- Auxiliary verification predicate: the characters the kebab separator
normalization and special-character strip leave alone or turn into
separators — letters, digits, whitespace, hyphen, underscore.  Strings of
such characters lose nothing to the `[^\p{L}\p{N}\s]` strip. -/
def kebabPlain (c : Nat) : Bool := uniLetter c || digit c || jsWs c || c == 45 || c == 95

/-- Auxiliary verification predicate: no two adjacent characters match
`p` then `q`. -/
inductive NoAdj (p q : Nat → Bool) : JStr → Prop where
  | nil : NoAdj p q []
  | single (c : Nat) : NoAdj p q [c]
  | cons (c1 c2 : Nat) (rest : JStr) (h : ¬(p c1 = true ∧ q c2 = true))
      (htl : NoAdj p q (c2 :: rest)) : NoAdj p q (c1 :: c2 :: rest)

/-! ### Character-level lemmas -/

theorem jsToLower_not_upper (c : Nat) : asciiUpper (jsToLower c) = false := by
  unfold jsToLower
  split_ifs <;> simp only [asciiUpper, decide_eq_false_iff_not] <;> omega

theorem jsToLower_fix {c : Nat} (h : lowAl c = true) : jsToLower c = c := by
  simp only [lowAl, asciiLower, digit, cyrLower, Bool.or_eq_true, decide_eq_true_eq] at h
  unfold jsToLower
  split_ifs <;> omega

theorem jsToLower_lowAl {c : Nat} (h : uniLetter c = true ∨ digit c = true) :
    lowAl (jsToLower c) = true := by
  simp only [uniLetter, asciiLower, asciiUpper, cyrLower, cyrUpper, digit, Bool.or_eq_true,
    decide_eq_true_eq] at h
  unfold jsToLower
  split_ifs <;> simp [lowAl, asciiLower, digit, cyrLower] <;> omega

theorem lowAl_not_ws {c : Nat} (h : lowAl c = true) : jsWs c = false := by
  simp only [lowAl, asciiLower, digit, cyrLower, Bool.or_eq_true, decide_eq_true_eq] at h
  simp only [jsWs, decide_eq_false_iff_not]
  omega

theorem lowAl_not_kebabSep {c : Nat} (h : lowAl c = true) : kebabSep c = false := by
  simp only [lowAl, asciiLower, digit, cyrLower, Bool.or_eq_true, decide_eq_true_eq] at h
  simp only [kebabSep, jsWs, Bool.or_eq_false_iff, beq_eq_false_iff_ne, ne_eq,
    decide_eq_false_iff_not]
  omega

theorem lowAl_kebabKeep {c : Nat} (h : lowAl c = true) : kebabKeep c = true := by
  simp only [lowAl, asciiLower, digit, cyrLower, Bool.or_eq_true, decide_eq_true_eq] at h
  simp only [kebabKeep, uniLetter, uniNum, asciiLower, asciiUpper, cyrLower, cyrUpper, digit,
    jsWs, Bool.or_eq_true, decide_eq_true_eq]
  omega

theorem lowAl_not_upper {c : Nat} (h : lowAl c = true) : asciiUpper c = false := by
  simp only [lowAl, asciiLower, digit, cyrLower, Bool.or_eq_true, decide_eq_true_eq] at h
  simp only [asciiUpper, decide_eq_false_iff_not]
  omega

theorem asciiLetter_of_lower {c : Nat} (h : asciiLetter (jsToLower c) = true) :
    asciiLetter c = true := by
  revert h
  unfold jsToLower
  split_ifs <;>
    simp only [asciiLetter, asciiLower, asciiUpper, Bool.or_eq_true, decide_eq_true_eq] <;> omega

theorem digit_of_lower {c : Nat} (h : digit (jsToLower c) = true) : digit c = true := by
  revert h
  unfold jsToLower
  split_ifs <;> simp only [digit, decide_eq_true_eq] <;> omega

theorem alnum_jsToLower {c : Nat} (h : asciiAlnum c = true) :
    asciiAlnum (jsToLower c) = true := by
  simp only [asciiAlnum, asciiLetter, asciiLower, asciiUpper, digit, Bool.or_eq_true,
    decide_eq_true_eq] at h
  unfold jsToLower
  split_ifs <;>
    simp only [asciiAlnum, asciiLetter, asciiLower, asciiUpper, digit, Bool.or_eq_true,
      decide_eq_true_eq] <;> omega

theorem alnum_jsToUpper {c : Nat} (h : asciiAlnum c = true) :
    asciiAlnum (jsToUpper c) = true := by
  simp only [asciiAlnum, asciiLetter, asciiLower, asciiUpper, digit, Bool.or_eq_true,
    decide_eq_true_eq] at h
  unfold jsToUpper
  split_ifs <;>
    simp only [asciiAlnum, asciiLetter, asciiLower, asciiUpper, digit, Bool.or_eq_true,
      decide_eq_true_eq] <;> omega

theorem alnum_not_ws {c : Nat} (h : asciiAlnum c = true) : jsWs c = false := by
  simp only [asciiAlnum, asciiLetter, asciiLower, asciiUpper, digit, Bool.or_eq_true,
    decide_eq_true_eq] at h
  simp only [jsWs, decide_eq_false_iff_not]
  omega

theorem alnum_not_camelSep {c : Nat} (h : asciiAlnum c = true) : camelSep c = false := by
  simp only [asciiAlnum, asciiLetter, asciiLower, asciiUpper, digit, Bool.or_eq_true,
    decide_eq_true_eq] at h
  simp only [camelSep, jsWs, Bool.or_eq_false_iff, beq_eq_false_iff_ne, ne_eq,
    decide_eq_false_iff_not]
  omega

theorem alnum_camelKeep {c : Nat} (h : asciiAlnum c = true) : camelKeep c = true := by
  simp only [camelKeep, Bool.or_eq_true]
  simp only [asciiAlnum, Bool.or_eq_true] at h
  tauto

theorem alnum_ne_32 {c : Nat} (h : asciiAlnum c = true) : c ≠ 32 := by
  simp only [asciiAlnum, asciiLetter, asciiLower, asciiUpper, digit, Bool.or_eq_true,
    decide_eq_true_eq] at h
  omega

theorem camelKeep_alnum_or_32 {c : Nat} (h : camelKeep c = true) :
    asciiAlnum c = true ∨ c = 32 := by
  simp only [camelKeep, asciiAlnum, Bool.or_eq_true, beq_iff_eq] at h ⊢
  tauto

/-! ### List-level helper lemmas -/

theorem head?_mem {l : JStr} {c : Nat} (h : l.head? = some c) : c ∈ l := by
  cases l with
  | nil => simp at h
  | cons a t =>
    simp only [List.head?_cons, Option.some.injEq] at h
    exact h ▸ List.mem_cons_self a t

theorem dropWhile_eq_self_of_head {p : Nat → Bool} {l : JStr}
    (h : ∀ c, l.head? = some c → p c = false) : l.dropWhile p = l := by
  cases l with
  | nil => rfl
  | cons a t => simp [List.dropWhile_cons, h a rfl]

theorem jsTrim_eq_self {l : JStr} (hh : ∀ c, l.head? = some c → jsWs c = false)
    (hl : ∀ c, l.getLast? = some c → jsWs c = false) : jsTrim l = l := by
  unfold jsTrim
  rw [dropWhile_eq_self_of_head hh,
    dropWhile_eq_self_of_head (fun c hc => hl c (by rwa [List.head?_reverse] at hc)),
    List.reverse_reverse]

theorem jsTrim_eq_self_of_all {l : JStr} (h : ∀ c ∈ l, jsWs c = false) : jsTrim l = l :=
  jsTrim_eq_self (fun c hc => h c (head?_mem hc))
    (fun c hc => h c (List.mem_of_getLast?_eq_some hc))

theorem jsTrim_eq_nil_iff {l : JStr} : jsTrim l = [] ↔ ∀ c ∈ l, jsWs c = true := by
  unfold jsTrim
  rw [List.reverse_eq_nil_iff, List.dropWhile_eq_nil_iff]
  constructor
  · intro h c hc
    have hsplit := List.takeWhile_append_dropWhile (p := jsWs) (l := l)
    rw [← hsplit] at hc
    rcases List.mem_append.mp hc with h1 | h2
    · exact List.mem_takeWhile_imp h1
    · exact h c (List.mem_reverse.mpr h2)
  · intro h c hc
    exact h c ((List.dropWhile_sublist jsWs).subset (List.mem_reverse.mp hc))

theorem mem_jsTrim {c : Nat} {l : JStr} (h : c ∈ jsTrim l) : c ∈ l := by
  unfold jsTrim at h
  rw [List.mem_reverse] at h
  have h2 := (List.dropWhile_sublist jsWs).subset h
  rw [List.mem_reverse] at h2
  exact (List.dropWhile_sublist jsWs).subset h2

theorem map_eq_self {f : Nat → Nat} : ∀ {l : JStr}, (∀ c ∈ l, f c = c) → l.map f = l := by
  intro l
  induction l with
  | nil => intro _; rfl
  | cons a t ih =>
    intro h
    rw [List.map_cons, h a (List.mem_cons_self a t),
      ih (fun c hc => h c (List.mem_cons_of_mem a hc))]

theorem collapseRuns_eq_self {p : Nat → Bool} {r : Nat} :
    ∀ {l : JStr} (b : Bool), (∀ c ∈ l, p c = false) → collapseRuns p r b l = l := by
  intro l
  induction l with
  | nil => intro b _; rfl
  | cons a t ih =>
    intro b h
    rw [collapseRuns, if_neg (by simp [h a (List.mem_cons_self a t)])]
    rw [ih false (fun c hc => h c (List.mem_cons_of_mem a hc))]

theorem collapseRuns_append {p : Nat → Bool} {r : Nat} :
    ∀ {w : JStr} (l : JStr), (∀ c ∈ w, p c = false) →
      collapseRuns p r false (w ++ l) = w ++ collapseRuns p r false l := by
  intro w
  induction w with
  | nil => intro l _; rfl
  | cons a t ih =>
    intro l h
    rw [List.cons_append, collapseRuns, if_neg (by simp [h a (List.mem_cons_self a t)])]
    rw [ih l (fun c hc => h c (List.mem_cons_of_mem a hc)), List.cons_append]

theorem collapseRuns_all_true {p : Nat → Bool} {r : Nat} :
    ∀ {l : JStr}, (∀ c ∈ l, p c = true) → collapseRuns p r true l = [] := by
  intro l
  induction l with
  | nil => intro _; rfl
  | cons a t ih =>
    intro h
    rw [collapseRuns, if_pos (by simp [h a (List.mem_cons_self a t)])]
    exact ih (fun c hc => h c (List.mem_cons_of_mem a hc))

theorem collapseRuns_head_not {p : Nat → Bool} {r : Nat} {l : JStr}
    (h : ∀ c, l.head? = some c → p c = false) (b1 b2 : Bool) :
    collapseRuns p r b1 l = collapseRuns p r b2 l := by
  cases l with
  | nil => rfl
  | cons a t =>
    rw [collapseRuns, collapseRuns, if_neg (by simp [h a rfl]), if_neg (by simp [h a rfl])]

theorem mem_collapseRuns {p : Nat → Bool} {r : Nat} :
    ∀ {l : JStr} {b : Bool} {c : Nat},
      c ∈ collapseRuns p r b l → c = r ∨ (c ∈ l ∧ p c = false) := by
  intro l
  induction l with
  | nil => intro b c h; rw [collapseRuns] at h; simp at h
  | cons a t ih =>
    intro b c h
    rw [collapseRuns] at h
    by_cases hpa : p a = true
    · rw [if_pos (by simp [hpa])] at h
      cases b with
      | true =>
        rcases ih h with h1 | h2
        · exact Or.inl h1
        · exact Or.inr ⟨List.mem_cons_of_mem a h2.1, h2.2⟩
      | false =>
        rcases List.mem_cons.mp h with rfl | h2
        · exact Or.inl rfl
        · rcases ih h2 with h3 | h4
          · exact Or.inl h3
          · exact Or.inr ⟨List.mem_cons_of_mem a h4.1, h4.2⟩
    · rw [if_neg (by simp [hpa])] at h
      rcases List.mem_cons.mp h with hceq | h2
      · exact Or.inr ⟨hceq ▸ List.mem_cons_self _ _, hceq ▸ (by simpa using hpa)⟩
      · rcases ih h2 with h3 | h4
        · exact Or.inl h3
        · exact Or.inr ⟨List.mem_cons_of_mem a h4.1, h4.2⟩

theorem splitOnChar_mem :
    ∀ {l : JStr} {a : Nat} {w : JStr}, w ∈ splitOnChar a l → ∀ c ∈ w, c ∈ l ∧ c ≠ a := by
  intro l
  induction l with
  | nil =>
    intro a w hw c hc
    rw [splitOnChar] at hw
    simp only [List.mem_singleton] at hw
    subst hw
    simp at hc
  | cons x t ih =>
    intro a w hw c hc
    rw [splitOnChar] at hw
    by_cases hx : x = a
    · rw [if_pos hx] at hw
      rcases List.mem_cons.mp hw with hweq | hw2
      · subst hweq; simp at hc
      · have := ih hw2 c hc
        exact ⟨List.mem_cons_of_mem x this.1, this.2⟩
    · rw [if_neg hx] at hw
      rcases hsp : splitOnChar a t with _ | ⟨u, us⟩
      · rw [hsp] at hw
        simp only [List.mem_singleton] at hw
        subst hw
        rcases List.mem_singleton.mp hc with rfl
        exact ⟨List.mem_cons_self _ _, hx⟩
      · rw [hsp] at hw
        rcases List.mem_cons.mp hw with hweq | hw2
        · subst hweq
          rcases List.mem_cons.mp hc with hceq | hc2
          · exact ⟨hceq ▸ List.mem_cons_self _ _, hceq ▸ hx⟩
          · have := ih (hsp ▸ List.mem_cons_self u us) c hc2
            exact ⟨List.mem_cons_of_mem x this.1, this.2⟩
        · have := ih (hsp ▸ List.mem_cons_of_mem u hw2) c hc
          exact ⟨List.mem_cons_of_mem x this.1, this.2⟩

theorem splitOnChar_eq_single {a : Nat} :
    ∀ {l : JStr}, (∀ c ∈ l, c ≠ a) → splitOnChar a l = [l] := by
  intro l
  induction l with
  | nil => intro _; rfl
  | cons x t ih =>
    intro h
    rw [splitOnChar, if_neg (h x (List.mem_cons_self x t)),
      ih (fun c hc => h c (List.mem_cons_of_mem x hc))]

theorem splitOnChar_append {a : Nat} :
    ∀ {w : JStr} (l : JStr), (∀ c ∈ w, c ≠ a) →
      splitOnChar a (w ++ a :: l) = w :: splitOnChar a l := by
  intro w
  induction w with
  | nil => intro l _; rw [List.nil_append, splitOnChar, if_pos rfl]
  | cons x t ih =>
    intro l h
    rw [List.cons_append, splitOnChar, if_neg (h x (List.mem_cons_self x t)),
      ih l (fun c hc => h c (List.mem_cons_of_mem x hc))]

theorem insPair_eq_self_q (p q : Nat → Bool) (l : JStr) :
    (∀ c ∈ l, q c = false) → insPair p q l = l := by
  induction l using insPair.induct p q with
  | case1 => intro _; rfl
  | case2 c => intro _; rfl
  | case3 c1 c2 rest hc ih =>
    intro h
    exact absurd ((Bool.and_eq_true _ _).mp hc).2
      (by simp [h c2 (List.mem_cons_of_mem c1 (List.mem_cons_self c2 rest))])
  | case4 c1 c2 rest hc ih =>
    intro h
    rw [insPair, if_neg hc, ih (fun c hcm => h c (List.mem_cons_of_mem c1 hcm))]

theorem insPair_eq_self_p (p q : Nat → Bool) (l : JStr) :
    (∀ c ∈ l, p c = false) → insPair p q l = l := by
  induction l using insPair.induct p q with
  | case1 => intro _; rfl
  | case2 c => intro _; rfl
  | case3 c1 c2 rest hc ih =>
    intro h
    exact absurd ((Bool.and_eq_true _ _).mp hc).1
      (by simp [h c1 (List.mem_cons_self c1 (c2 :: rest))])
  | case4 c1 c2 rest hc ih =>
    intro h
    rw [insPair, if_neg hc, ih (fun c hcm => h c (List.mem_cons_of_mem c1 hcm))]

theorem mem_insPair (p q : Nat → Bool) (l : JStr) :
    ∀ c ∈ insPair p q l, c = 32 ∨ c ∈ l := by
  induction l using insPair.induct p q with
  | case1 => intro c h; rw [insPair] at h; simp at h
  | case2 d => intro c h; rw [insPair] at h; exact Or.inr h
  | case3 c1 c2 rest hc ih =>
    intro c h
    rw [insPair, if_pos hc] at h
    simp only [List.mem_cons] at h ⊢
    rcases h with h1 | h1 | h1 | h1
    · exact Or.inr (Or.inl h1)
    · exact Or.inl h1
    · exact Or.inr (Or.inr (Or.inl h1))
    · rcases ih c h1 with h2 | h2
      · exact Or.inl h2
      · exact Or.inr (Or.inr (Or.inr h2))
  | case4 c1 c2 rest hc ih =>
    intro c h
    rw [insPair, if_neg hc] at h
    simp only [List.mem_cons] at h ⊢
    rcases h with h1 | h1
    · exact Or.inr (Or.inl h1)
    · rcases ih c h1 with h2 | h2
      · exact Or.inl h2
      · exact Or.inr (Or.inr (by simpa using h2))

theorem insAcronym_eq_self (l : JStr) :
    (∀ c ∈ l, asciiUpper c = false) → insAcronym l = l := by
  induction l using insAcronym.induct with
  | case1 c1 c2 c3 rest hc ih =>
    intro h
    rw [Bool.and_assoc] at hc
    exact absurd ((Bool.and_eq_true _ _).mp hc).1
      (by simp [h c1 (List.mem_cons_self c1 (c2 :: c3 :: rest))])
  | case2 c1 c2 c3 rest hc ih =>
    intro h
    rw [insAcronym, if_neg hc, ih (fun c hcm => h c (List.mem_cons_of_mem c1 hcm))]
  | case3 l hshort =>
    intro _
    rcases l with _ | ⟨c1, _ | ⟨c2, _ | ⟨c3, rest⟩⟩⟩
    · rfl
    · rfl
    · rfl
    · exact absurd rfl (hshort c1 c2 c3 rest)

theorem mem_insAcronym (l : JStr) : ∀ c ∈ insAcronym l, c = 32 ∨ c ∈ l := by
  induction l using insAcronym.induct with
  | case1 c1 c2 c3 rest hc ih =>
    intro c h
    rw [insAcronym, if_pos hc] at h
    simp only [List.mem_cons] at h ⊢
    rcases h with h1 | h1 | h1
    · exact Or.inr (Or.inl h1)
    · exact Or.inl h1
    · rcases ih c h1 with h2 | h2
      · exact Or.inl h2
      · exact Or.inr (Or.inr (by simpa using h2))
  | case2 c1 c2 c3 rest hc ih =>
    intro c h
    rw [insAcronym, if_neg hc] at h
    simp only [List.mem_cons] at h ⊢
    rcases h with h1 | h1
    · exact Or.inr (Or.inl h1)
    · rcases ih c h1 with h2 | h2
      · exact Or.inl h2
      · exact Or.inr (Or.inr (by simpa using h2))
  | case3 l hshort =>
    intro c h
    rcases l with _ | ⟨c1, _ | ⟨c2, _ | ⟨c3, rest⟩⟩⟩
    · exact Or.inr h
    · exact Or.inr h
    · exact Or.inr h
    · exact absurd rfl (hshort c1 c2 c3 rest)

theorem joinSep_cons_cons (sep : Nat) (w w2 : JStr) (t : List JStr) :
    joinSep sep (w :: w2 :: t) = w ++ sep :: joinSep sep (w2 :: t) := rfl

/-! ### Adjacency-invariant lemmas -/

theorem noAdj_tail {p q : Nat → Bool} {c : Nat} {l : JStr} (h : NoAdj p q (c :: l)) :
    NoAdj p q l := by
  cases h with
  | single _ => exact .nil
  | cons _ _ _ _ htl => exact htl

theorem noAdj_pair {p q : Nat → Bool} {c1 c2 : Nat} {rest : JStr}
    (h : NoAdj p q (c1 :: c2 :: rest)) : ¬(p c1 = true ∧ q c2 = true) := by
  cases h with
  | cons _ _ _ hp _ => exact hp

theorem noAdj_cons_any {p q : Nat → Bool} {c : Nat} {l : JStr}
    (hpair : ∀ d, l.head? = some d → ¬(p c = true ∧ q d = true)) (h : NoAdj p q l) :
    NoAdj p q (c :: l) := by
  cases l with
  | nil => exact .single c
  | cons d t => exact .cons c d t (hpair d rfl) h

theorem insPair_cons (p q : Nat → Bool) (c : Nat) (l : JStr) :
    ∃ r, insPair p q (c :: l) = c :: r := by
  cases l with
  | nil => exact ⟨[], rfl⟩
  | cons c2 t =>
    by_cases h : (p c && q c2) = true
    · exact ⟨32 :: c2 :: insPair p q t, by rw [insPair, if_pos h]⟩
    · exact ⟨insPair p q (c2 :: t), by rw [insPair, if_neg h]⟩

theorem insPair_eq_of_noAdj (p q : Nat → Bool) (l : JStr) :
    NoAdj p q l → insPair p q l = l := by
  induction l using insPair.induct p q with
  | case1 => intro _; rfl
  | case2 c => intro _; rfl
  | case3 c1 c2 rest hc ih =>
    intro h
    exact absurd ((Bool.and_eq_true _ _).mp hc) (noAdj_pair h)
  | case4 c1 c2 rest hc ih =>
    intro h
    rw [insPair, if_neg hc, ih (noAdj_tail h)]

theorem insPair_noAdj (p q : Nat → Bool) (hdisj : ∀ c, ¬(p c = true ∧ q c = true))
    (hp32 : p 32 = false) (hq32 : q 32 = false) (l : JStr) :
    NoAdj p q (insPair p q l) := by
  induction l using insPair.induct p q with
  | case1 => exact .nil
  | case2 c => exact .single c
  | case3 c1 c2 rest hc ih =>
    rw [insPair, if_pos hc]
    have hq2 : q c2 = true := ((Bool.and_eq_true _ _).mp hc).2
    have hp2 : p c2 = false := by
      cases hpc : p c2 with
      | false => rfl
      | true => exact absurd ⟨hpc, hq2⟩ (hdisj c2)
    refine NoAdj.cons _ _ _ (fun hand => by simp [hq32] at hand) ?_
    refine NoAdj.cons _ _ _ (fun hand => by simp [hp32] at hand) ?_
    exact noAdj_cons_any (fun d _ hand => by simp [hp2] at hand) ih
  | case4 c1 c2 rest hc ih =>
    rw [insPair, if_neg hc]
    obtain ⟨r, hr⟩ := insPair_cons p q c2 rest
    rw [hr]
    refine NoAdj.cons _ _ _ (fun hand => hc (by simp [hand.1, hand.2])) ?_
    rw [← hr]
    exact ih

theorem insPair_preserves_noAdj (p q p2 q2 : Nat → Bool)
    (hp32 : p 32 = false) (hq32 : q 32 = false) (l : JStr) :
    NoAdj p q l → NoAdj p q (insPair p2 q2 l) := by
  induction l using insPair.induct p2 q2 with
  | case1 => intro _; exact .nil
  | case2 c => intro _; exact .single c
  | case3 c1 c2 rest hc ih =>
    intro h
    rw [insPair, if_pos hc]
    refine NoAdj.cons _ _ _ (fun hand => by simp [hq32] at hand) ?_
    refine NoAdj.cons _ _ _ (fun hand => by simp [hp32] at hand) ?_
    refine noAdj_cons_any ?_ (ih (noAdj_tail (noAdj_tail h)))
    intro d hd
    cases rest with
    | nil => rw [insPair] at hd; simp at hd
    | cons c3 t =>
      obtain ⟨r, hr⟩ := insPair_cons p2 q2 c3 t
      rw [hr] at hd
      simp only [List.head?_cons, Option.some.injEq] at hd
      subst hd
      exact noAdj_pair (noAdj_tail h)
  | case4 c1 c2 rest hc ih =>
    intro h
    rw [insPair, if_neg hc]
    obtain ⟨r, hr⟩ := insPair_cons p2 q2 c2 rest
    rw [hr]
    exact NoAdj.cons _ _ _ (noAdj_pair h) (hr ▸ ih (noAdj_tail h))

theorem noAdj_map (p q : Nat → Bool) (f : Nat → Nat)
    (hp : ∀ c, p (f c) = true → p c = true) (hq : ∀ c, q (f c) = true → q c = true)
    {l : JStr} (h : NoAdj p q l) : NoAdj p q (l.map f) := by
  induction h with
  | nil => exact .nil
  | single c => exact .single (f c)
  | cons c1 c2 rest hpair htl ih =>
    simp only [List.map_cons] at ih ⊢
    exact NoAdj.cons _ _ _ (fun hand => hpair ⟨hp _ hand.1, hq _ hand.2⟩) ih

theorem noAdj_append_cons {p q : Nat → Bool} {s : Nat}
    (hqs : q s = false) (hps : p s = false) :
    ∀ {w l : JStr}, NoAdj p q w → NoAdj p q l → NoAdj p q (w ++ s :: l) := by
  intro w
  induction w with
  | nil =>
    intro l _ hl
    exact noAdj_cons_any (fun d _ hand => by simp [hps] at hand) hl
  | cons c t ih =>
    intro l hw hl
    rw [List.cons_append]
    refine noAdj_cons_any ?_ (ih (noAdj_tail hw) hl)
    intro d hd
    cases t with
    | nil =>
      simp only [List.nil_append, List.head?_cons, Option.some.injEq] at hd
      subst hd
      intro hand
      simp [hqs] at hand
    | cons c2 t2 =>
      simp only [List.cons_append, List.head?_cons, Option.some.injEq] at hd
      subst hd
      exact noAdj_pair hw

theorem noAdj_joinSep {p q : Nat → Bool} {sep : Nat}
    (hpsep : p sep = false) (hqsep : q sep = false) :
    ∀ {T : List JStr}, (∀ w ∈ T, NoAdj p q w) → NoAdj p q (joinSep sep T) := by
  intro T
  induction T with
  | nil => intro _; exact .nil
  | cons w t ih =>
    intro h
    cases t with
    | nil => exact h w (List.mem_cons_self w [])
    | cons w2 t2 =>
      rw [joinSep_cons_cons]
      exact noAdj_append_cons hqsep hpsep (h w (List.mem_cons_self _ _))
        (ih (fun u hu => h u (List.mem_cons_of_mem w hu)))

/-! ### Join and tokenization lemmas -/

theorem joinSep_mem {sep : Nat} :
    ∀ {ws : List JStr} {c : Nat}, c ∈ joinSep sep ws → c = sep ∨ ∃ w ∈ ws, c ∈ w := by
  intro ws
  induction ws with
  | nil => intro c h; rw [joinSep] at h; simp at h
  | cons w t ih =>
    intro c h
    cases t with
    | nil => exact Or.inr ⟨w, List.mem_cons_self _ _, h⟩
    | cons w2 t2 =>
      rw [joinSep_cons_cons] at h
      rcases List.mem_append.mp h with h1 | h1
      · exact Or.inr ⟨w, List.mem_cons_self _ _, h1⟩
      · rcases List.mem_cons.mp h1 with hceq | h2
        · exact Or.inl hceq
        · rcases ih h2 with h3 | ⟨u, hu, hcu⟩
          · exact Or.inl h3
          · exact Or.inr ⟨u, List.mem_cons_of_mem w hu, hcu⟩

theorem joinSep_head {sep : Nat} {w : JStr} {t : List JStr} (hw : w ≠ []) :
    (joinSep sep (w :: t)).head? = w.head? := by
  cases t with
  | nil => rfl
  | cons w2 t2 =>
    rw [joinSep_cons_cons]
    exact List.head?_append_of_ne_nil _ hw

theorem map_joinSep {f : Nat → Nat} {sep : Nat} (hf : f sep = sep) :
    ∀ (T : List JStr), (joinSep sep T).map f = joinSep sep (T.map (List.map f)) := by
  intro T
  induction T with
  | nil => rfl
  | cons w t ih =>
    cases t with
    | nil => rfl
    | cons w2 t2 =>
      rw [joinSep_cons_cons, List.map_append, List.map_cons, hf, ih]
      simp only [List.map_cons, joinSep_cons_cons]

theorem wsTokens_cons_ws {c : Nat} {l : JStr} (h : jsWs c = true) :
    wsTokens (c :: l) = wsTokens l := by
  cases l with
  | nil => simp [wsTokens, h]
  | cons c2 t => simp [wsTokens, h]

theorem wsTokens_head : ∀ {l : JStr} {c : Nat}, jsWs c = false →
    ∃ t ts, wsTokens (c :: l) = (c :: t) :: ts := by
  intro l
  induction l with
  | nil => intro c h; exact ⟨[], [], by simp [wsTokens, h]⟩
  | cons c2 t ih =>
    intro c h
    by_cases h2 : jsWs c2 = true
    · exact ⟨[], wsTokens t, by simp [wsTokens, h, h2]⟩
    · obtain ⟨t1, ts1, ht⟩ := ih (c := c2) (by simpa using h2)
      refine ⟨c2 :: t1, ts1, ?_⟩
      simp [wsTokens, h, h2, ht]

theorem wsTokens_single : ∀ {l : JStr}, l ≠ [] → (∀ c ∈ l, jsWs c = false) →
    wsTokens l = [l] := by
  intro l
  induction l with
  | nil => intro h _; exact absurd rfl h
  | cons c t ih =>
    intro _ h
    cases t with
    | nil => simp [wsTokens, h c (List.mem_cons_self c [])]
    | cons c2 t2 =>
      have h1 : jsWs c = false := h c (List.mem_cons_self _ _)
      have h2 : jsWs c2 = false :=
        h c2 (List.mem_cons_of_mem c (List.mem_cons_self _ _))
      have ht : wsTokens (c2 :: t2) = [c2 :: t2] :=
        ih (by simp) (fun d hd => h d (List.mem_cons_of_mem c hd))
      simp [wsTokens, h1, h2, ht]

theorem wsTokens_append_token : ∀ {w : JStr} (l : JStr), w ≠ [] →
    (∀ c ∈ w, jsWs c = false) → wsTokens (w ++ 32 :: l) = w :: wsTokens l := by
  intro w
  induction w with
  | nil => intro l h _; exact absurd rfl h
  | cons c t ih =>
    intro l _ h
    have h32 : jsWs 32 = true := by decide
    cases t with
    | nil => simp [wsTokens, h c (List.mem_cons_self c []), h32]
    | cons c2 t2 =>
      have h1 : jsWs c = false := h c (List.mem_cons_self _ _)
      have h2 : jsWs c2 = false :=
        h c2 (List.mem_cons_of_mem c (List.mem_cons_self _ _))
      have ht := ih l (by simp) (fun d hd => h d (List.mem_cons_of_mem c hd))
      simp only [List.cons_append] at ht ⊢
      simp [wsTokens, h1, h2, ht]

theorem wsTokens_joinSep : ∀ {T : List JStr},
    (∀ w ∈ T, w ≠ [] ∧ ∀ c ∈ w, jsWs c = false) → wsTokens (joinSep 32 T) = T := by
  intro T
  induction T with
  | nil => intro _; rfl
  | cons w t ih =>
    intro h
    cases t with
    | nil => exact wsTokens_single (h w (List.mem_cons_self _ _)).1 (h w (List.mem_cons_self _ _)).2
    | cons w2 t2 =>
      rw [joinSep_cons_cons,
        wsTokens_append_token _ (h w (List.mem_cons_self _ _)).1 (h w (List.mem_cons_self _ _)).2,
        ih (fun u hu => h u (List.mem_cons_of_mem w hu))]

theorem wsTokens_mem : ∀ {l : JStr} {w : JStr}, w ∈ wsTokens l →
    w ≠ [] ∧ ∀ c ∈ w, c ∈ l ∧ jsWs c = false := by
  intro l
  induction l with
  | nil => intro w hw; rw [wsTokens] at hw; simp at hw
  | cons c t ih =>
    intro w hw
    by_cases hc : jsWs c = true
    · rw [wsTokens_cons_ws hc] at hw
      obtain ⟨hne, hmem⟩ := ih hw
      exact ⟨hne, fun d hd => ⟨List.mem_cons_of_mem c (hmem d hd).1, (hmem d hd).2⟩⟩
    · cases t with
      | nil =>
        rw [wsTokens] at hw
        rw [if_neg hc] at hw
        simp only [List.mem_singleton] at hw
        subst hw
        refine ⟨by simp, fun d hd => ?_⟩
        rcases List.mem_singleton.mp hd with rfl
        exact ⟨List.mem_cons_self _ _, by simpa using hc⟩
      | cons c2 t2 =>
        by_cases hc2 : jsWs c2 = true
        · have heq : wsTokens (c :: c2 :: t2) = [c] :: wsTokens t2 := by
            simp [wsTokens, hc, hc2]
          rw [heq] at hw
          rcases List.mem_cons.mp hw with hweq | hw2
          · subst hweq
            refine ⟨by simp, fun d hd => ?_⟩
            rcases List.mem_singleton.mp hd with rfl
            exact ⟨List.mem_cons_self _ _, by simpa using hc⟩
          · have hw3 : w ∈ wsTokens (c2 :: t2) := by rwa [wsTokens_cons_ws hc2]
            obtain ⟨hne, hmem⟩ := ih hw3
            exact ⟨hne, fun d hd => ⟨List.mem_cons_of_mem c (hmem d hd).1, (hmem d hd).2⟩⟩
        · obtain ⟨t1, ts1, ht⟩ := wsTokens_head (l := t2) (by simpa using hc2)
          have heq : wsTokens (c :: c2 :: t2) = (c :: c2 :: t1) :: ts1 := by
            simp [wsTokens, hc, hc2, ht]
          rw [heq] at hw
          rcases List.mem_cons.mp hw with hweq | hw2
          · subst hweq
            have htok : (c2 :: t1) ∈ wsTokens (c2 :: t2) := by
              rw [ht]; exact List.mem_cons_self _ _
            obtain ⟨_, hmem⟩ := ih htok
            refine ⟨by simp, fun d hd => ?_⟩
            rcases List.mem_cons.mp hd with hdeq | hd2
            · exact ⟨hdeq ▸ List.mem_cons_self _ _, hdeq ▸ (by simpa using hc)⟩
            · exact ⟨List.mem_cons_of_mem c (hmem d hd2).1, (hmem d hd2).2⟩
          · have hw3 : w ∈ wsTokens (c2 :: t2) := by
              rw [ht]; exact List.mem_cons_of_mem _ hw2
            obtain ⟨hne, hmem⟩ := ih hw3
            exact ⟨hne, fun d hd => ⟨List.mem_cons_of_mem c (hmem d hd).1, (hmem d hd).2⟩⟩

theorem wsTokens_noAdj {p q : Nat → Bool} : ∀ {l : JStr}, NoAdj p q l →
    ∀ w ∈ wsTokens l, NoAdj p q w := by
  intro l
  induction l with
  | nil => intro _ w hw; rw [wsTokens] at hw; simp at hw
  | cons c t ih =>
    intro h w hw
    by_cases hc : jsWs c = true
    · rw [wsTokens_cons_ws hc] at hw
      exact ih (noAdj_tail h) w hw
    · cases t with
      | nil =>
        rw [wsTokens] at hw
        rw [if_neg hc] at hw
        simp only [List.mem_singleton] at hw
        subst hw
        exact .single c
      | cons c2 t2 =>
        by_cases hc2 : jsWs c2 = true
        · have heq : wsTokens (c :: c2 :: t2) = [c] :: wsTokens t2 := by
            simp [wsTokens, hc, hc2]
          rw [heq] at hw
          rcases List.mem_cons.mp hw with hweq | hw2
          · subst hweq; exact .single c
          · exact ih (noAdj_tail h) w (by rwa [wsTokens_cons_ws hc2])
        · obtain ⟨t1, ts1, ht⟩ := wsTokens_head (l := t2) (by simpa using hc2)
          have heq : wsTokens (c :: c2 :: t2) = (c :: c2 :: t1) :: ts1 := by
            simp [wsTokens, hc, hc2, ht]
          rw [heq] at hw
          rcases List.mem_cons.mp hw with hweq | hw2
          · subst hweq
            have htok : NoAdj p q (c2 :: t1) := by
              refine ih (noAdj_tail h) (c2 :: t1) ?_
              rw [ht]; exact List.mem_cons_self _ _
            exact .cons c c2 t1 (noAdj_pair h) htok
          · refine ih (noAdj_tail h) w ?_
            rw [ht]; exact List.mem_cons_of_mem _ hw2

/-! ### Kebab pipeline lemmas -/

theorem letter_digit_disjoint : ∀ c, ¬(asciiLetter c = true ∧ digit c = true) := by
  intro c hand
  obtain ⟨h1, h2⟩ := hand
  simp only [asciiLetter, asciiLower, asciiUpper, digit, Bool.or_eq_true,
    decide_eq_true_eq] at h1 h2
  omega

theorem digit_letter_disjoint : ∀ c, ¬(digit c = true ∧ asciiLetter c = true) := by
  intro c hand
  exact letter_digit_disjoint c ⟨hand.2, hand.1⟩

theorem kebabKeep_not_ws {c : Nat} (h1 : kebabKeep c = true) (h2 : jsWs c = false) :
    uniLetter c = true ∨ digit c = true := by
  simp only [kebabKeep, uniNum, Bool.or_eq_true] at h1
  rcases h1 with (h | h) | h
  · exact Or.inl h
  · exact Or.inr h
  · rw [h] at h2; exact absurd h2 (by simp)

theorem kebabPlain_not_sep {c : Nat} (h1 : kebabPlain c = true) (h2 : kebabSep c = false) :
    uniLetter c = true ∨ digit c = true := by
  simp only [kebabPlain, Bool.or_eq_true, beq_iff_eq] at h1
  simp only [kebabSep, Bool.or_eq_false_iff, beq_eq_false_iff_ne, ne_eq] at h2
  obtain ⟨⟨h95, h45⟩, hws⟩ := h2
  rcases h1 with (((h | h) | h) | h) | h
  · exact Or.inl h
  · exact Or.inr h
  · rw [h] at hws; exact absurd hws (by simp)
  · exact absurd h h45
  · exact absurd h h95

theorem collapse_joinSep : ∀ {T : List JStr},
    (∀ w ∈ T, w ≠ [] ∧ ∀ c ∈ w, kebabSep c = false) →
    collapseRuns kebabSep 32 false (joinSep 45 T) = joinSep 32 T := by
  intro T
  induction T with
  | nil => intro _; rfl
  | cons w t ih =>
    intro h
    cases t with
    | nil => exact collapseRuns_eq_self false (h w (List.mem_cons_self _ _)).2
    | cons w2 t2 =>
      rw [joinSep_cons_cons, collapseRuns_append _ (h w (List.mem_cons_self _ _)).2]
      rw [collapseRuns, if_pos (by decide : kebabSep 45 = true)]
      have hw2ne : w2 ≠ [] := (h w2 (List.mem_cons_of_mem w (List.mem_cons_self _ _))).1
      have hsw : collapseRuns kebabSep 32 true (joinSep 45 (w2 :: t2)) =
          collapseRuns kebabSep 32 false (joinSep 45 (w2 :: t2)) := by
        refine collapseRuns_head_not ?_ true false
        intro c hc
        rw [joinSep_head hw2ne] at hc
        exact (h w2 (List.mem_cons_of_mem w (List.mem_cons_self _ _))).2 c (head?_mem hc)
      rw [hsw, ih (fun u hu => h u (List.mem_cons_of_mem w hu)), joinSep_cons_cons]
      simp

theorem kebab_fixed (T : List JStr)
    (hne : ∀ w ∈ T, w ≠ [])
    (hchars : ∀ w ∈ T, ∀ c ∈ w, lowAl c = true)
    (hadj1 : ∀ w ∈ T, NoAdj asciiLetter digit w)
    (hadj2 : ∀ w ∈ T, NoAdj digit asciiLetter w) :
    toKebabCaseString (joinSep 45 T) = joinSep 45 T := by
  have hmemL : ∀ c ∈ joinSep 45 T, c = 45 ∨ lowAl c = true := by
    intro c hc
    rcases joinSep_mem hc with h | ⟨w, hw, hcw⟩
    · exact Or.inl h
    · exact Or.inr (hchars w hw c hcw)
  have hmemM : ∀ c ∈ joinSep 32 T, c = 32 ∨ lowAl c = true := by
    intro c hc
    rcases joinSep_mem hc with h | ⟨w, hw, hcw⟩
    · exact Or.inl h
    · exact Or.inr (hchars w hw c hcw)
  have hnoUp : ∀ c ∈ joinSep 32 T, asciiUpper c = false := by
    intro c hc
    rcases hmemM c hc with rfl | h
    · decide
    · exact lowAl_not_upper h
  cases T with
  | nil => decide
  | cons w0 t0 =>
    have hw0ne : w0 ≠ [] := hne w0 (List.mem_cons_self _ _)
    obtain ⟨c0, w0tl⟩ : ∃ c0 w0tl, w0 = c0 :: w0tl := by
      cases w0 with
      | nil => exact absurd rfl hw0ne
      | cons a b => exact ⟨a, b, rfl⟩
    obtain ⟨w0tl, rfl⟩ := w0tl
    have hc0mem : c0 ∈ joinSep 45 ((c0 :: w0tl) :: t0) := by
      cases t0 with
      | nil => exact List.mem_cons_self _ _
      | cons u v =>
        rw [joinSep_cons_cons]
        exact List.mem_append_left _ (List.mem_cons_self _ _)
    have htrim : ¬jsTrim (joinSep 45 ((c0 :: w0tl) :: t0)) = [] := by
      intro habs
      rw [jsTrim_eq_nil_iff] at habs
      have hws := habs c0 hc0mem
      have hlow := hchars _ (List.mem_cons_self _ _) c0 (List.mem_cons_self _ _)
      rw [lowAl_not_ws hlow] at hws
      exact absurd hws (by simp)
    have e1 : collapseRuns kebabSep 32 false (joinSep 45 ((c0 :: w0tl) :: t0)) =
        joinSep 32 ((c0 :: w0tl) :: t0) :=
      collapse_joinSep (fun w hw =>
        ⟨hne w hw, fun c hc => lowAl_not_kebabSep (hchars w hw c hc)⟩)
    have e2 : insPair lowerDigit asciiUpper (joinSep 32 ((c0 :: w0tl) :: t0)) =
        joinSep 32 ((c0 :: w0tl) :: t0) :=
      insPair_eq_self_q _ _ _ hnoUp
    have e3 : insAcronym (joinSep 32 ((c0 :: w0tl) :: t0)) =
        joinSep 32 ((c0 :: w0tl) :: t0) :=
      insAcronym_eq_self _ hnoUp
    have e4 : insPair asciiLetter digit (joinSep 32 ((c0 :: w0tl) :: t0)) =
        joinSep 32 ((c0 :: w0tl) :: t0) :=
      insPair_eq_of_noAdj _ _ _
        (noAdj_joinSep (by decide) (by decide) hadj1)
    have e5 : insPair digit asciiLetter (joinSep 32 ((c0 :: w0tl) :: t0)) =
        joinSep 32 ((c0 :: w0tl) :: t0) :=
      insPair_eq_of_noAdj _ _ _
        (noAdj_joinSep (by decide) (by decide) hadj2)
    have e6 : List.filter kebabKeep (joinSep 32 ((c0 :: w0tl) :: t0)) =
        joinSep 32 ((c0 :: w0tl) :: t0) := by
      rw [List.filter_eq_self]
      intro c hc
      rcases hmemM c hc with rfl | h
      · decide
      · exact lowAl_kebabKeep h
    have e7 : wsTokens (joinSep 32 ((c0 :: w0tl) :: t0)) = (c0 :: w0tl) :: t0 :=
      wsTokens_joinSep (fun w hw =>
        ⟨hne w hw, fun c hc => lowAl_not_ws (hchars w hw c hc)⟩)
    have e8 : (joinSep 45 ((c0 :: w0tl) :: t0)).map jsToLower =
        joinSep 45 ((c0 :: w0tl) :: t0) := by
      refine map_eq_self ?_
      intro c hc
      rcases hmemL c hc with rfl | h
      · decide
      · exact jsToLower_fix h
    rw [toKebabCaseString, if_neg htrim]
    simp only [e1, e2, e3, e4, e5, e6, e7, e8]

theorem kebab_plain_keep (s : JStr) (h : ∀ c ∈ s, kebabPlain c = true) :
    ∀ c ∈ insPair digit asciiLetter (insPair asciiLetter digit (insAcronym
      (insPair lowerDigit asciiUpper (collapseRuns kebabSep 32 false s)))),
      kebabKeep c = true := by
  intro c hc
  rcases mem_insPair _ _ _ c hc with hc32 | hc
  · subst hc32; decide
  rcases mem_insPair _ _ _ c hc with hc32 | hc
  · subst hc32; decide
  rcases mem_insAcronym _ c hc with hc32 | hc
  · subst hc32; decide
  rcases mem_insPair _ _ _ c hc with hc32 | hc
  · subst hc32; decide
  rcases mem_collapseRuns hc with hc32 | ⟨hcs, hsep⟩
  · subst hc32; decide
  rcases kebabPlain_not_sep (h c hcs) hsep with h1 | h1
  · simp [kebabKeep, h1]
  · simp [kebabKeep, uniNum, h1]

theorem kebab_double (s : JStr) (h : ∀ c ∈ s, kebabPlain c = true) :
    toKebabCaseString (toKebabCaseString s) = toKebabCaseString s := by
  by_cases h0 : jsTrim s = []
  · have hz : toKebabCaseString s = [] := by rw [toKebabCaseString, if_pos h0]
    rw [hz]
    decide
  · have hout : toKebabCaseString s =
        (joinSep 45 (wsTokens (List.filter kebabKeep (insPair digit asciiLetter
          (insPair asciiLetter digit (insAcronym (insPair lowerDigit asciiUpper
            (collapseRuns kebabSep 32 false s)))))))).map jsToLower := by
      rw [toKebabCaseString, if_neg h0]
    have hkeep := kebab_plain_keep s h
    have hfilter : List.filter kebabKeep (insPair digit asciiLetter (insPair asciiLetter digit
        (insAcronym (insPair lowerDigit asciiUpper (collapseRuns kebabSep 32 false s))))) =
        insPair digit asciiLetter (insPair asciiLetter digit (insAcronym
          (insPair lowerDigit asciiUpper (collapseRuns kebabSep 32 false s)))) :=
      List.filter_eq_self.mpr hkeep
    have hadjLD : NoAdj asciiLetter digit (insPair asciiLetter digit (insAcronym
        (insPair lowerDigit asciiUpper (collapseRuns kebabSep 32 false s)))) :=
      insPair_noAdj _ _ letter_digit_disjoint (by decide) (by decide) _
    have hadjLD5 : NoAdj asciiLetter digit (insPair digit asciiLetter (insPair asciiLetter digit
        (insAcronym (insPair lowerDigit asciiUpper (collapseRuns kebabSep 32 false s))))) :=
      insPair_preserves_noAdj _ _ _ _ (by decide) (by decide) _ hadjLD
    have hadjDL5 : NoAdj digit asciiLetter (insPair digit asciiLetter (insPair asciiLetter digit
        (insAcronym (insPair lowerDigit asciiUpper (collapseRuns kebabSep 32 false s))))) :=
      insPair_noAdj _ _ digit_letter_disjoint (by decide) (by decide) _
    have hmapjoin : (joinSep 45 (wsTokens (insPair digit asciiLetter (insPair asciiLetter digit
        (insAcronym (insPair lowerDigit asciiUpper
          (collapseRuns kebabSep 32 false s))))))).map jsToLower =
        joinSep 45 ((wsTokens (insPair digit asciiLetter (insPair asciiLetter digit
          (insAcronym (insPair lowerDigit asciiUpper
            (collapseRuns kebabSep 32 false s)))))).map (List.map jsToLower)) :=
      map_joinSep (by decide) _
    have hfix : toKebabCaseString (joinSep 45 ((wsTokens (insPair digit asciiLetter
        (insPair asciiLetter digit (insAcronym (insPair lowerDigit asciiUpper
          (collapseRuns kebabSep 32 false s)))))).map (List.map jsToLower))) =
        joinSep 45 ((wsTokens (insPair digit asciiLetter (insPair asciiLetter digit
          (insAcronym (insPair lowerDigit asciiUpper
            (collapseRuns kebabSep 32 false s)))))).map (List.map jsToLower)) := by
      refine kebab_fixed _ ?_ ?_ ?_ ?_
      · intro w hw
        rcases List.mem_map.mp hw with ⟨u, hu, rfl⟩
        simpa using (wsTokens_mem hu).1
      · intro w hw c hc
        rcases List.mem_map.mp hw with ⟨u, hu, rfl⟩
        rcases List.mem_map.mp hc with ⟨d, hd, rfl⟩
        have hmem := (wsTokens_mem hu).2 d hd
        exact jsToLower_lowAl (kebabKeep_not_ws (hkeep d hmem.1) hmem.2)
      · intro w hw
        rcases List.mem_map.mp hw with ⟨u, hu, rfl⟩
        exact noAdj_map asciiLetter digit jsToLower (fun d hd => asciiLetter_of_lower hd)
          (fun d hd => digit_of_lower hd) (wsTokens_noAdj hadjLD5 u hu)
      · intro w hw
        rcases List.mem_map.mp hw with ⟨u, hu, rfl⟩
        exact noAdj_map digit asciiLetter jsToLower (fun d hd => digit_of_lower hd)
          (fun d hd => asciiLetter_of_lower hd) (wsTokens_noAdj hadjDL5 u hu)
    calc toKebabCaseString (toKebabCaseString s)
        = toKebabCaseString (joinSep 45 ((wsTokens (insPair digit asciiLetter
            (insPair asciiLetter digit (insAcronym (insPair lowerDigit asciiUpper
              (collapseRuns kebabSep 32 false s)))))).map (List.map jsToLower))) := by
          rw [hout, hfilter, hmapjoin]
      _ = joinSep 45 ((wsTokens (insPair digit asciiLetter (insPair asciiLetter digit
            (insAcronym (insPair lowerDigit asciiUpper
              (collapseRuns kebabSep 32 false s)))))).map (List.map jsToLower)) := hfix
      _ = toKebabCaseString s := by rw [hout, hfilter, hmapjoin]

/-! ### camelCase and dotCase pipeline lemmas -/

theorem camelJoin_mem : ∀ {ws : List JStr} {c : Nat}, c ∈ camelJoin ws →
    ∃ w ∈ ws, (c ∈ w.map jsToLower ∨ c ∈ capWord w) := by
  intro ws c h
  cases ws with
  | nil => rw [camelJoin] at h; simp at h
  | cons w t =>
    rw [camelJoin] at h
    rcases List.mem_append.mp h with h1 | h1
    · exact ⟨w, List.mem_cons_self _ _, Or.inl h1⟩
    · rcases List.mem_flatten.mp h1 with ⟨u, hu, hcu⟩
      rcases List.mem_map.mp hu with ⟨v, hv, rfl⟩
      exact ⟨v, List.mem_cons_of_mem w hv, Or.inr hcu⟩

theorem capWord_chars {w : JStr} (h : ∀ c ∈ w, asciiAlnum c = true) :
    ∀ c ∈ capWord w, asciiAlnum c = true := by
  cases w with
  | nil => intro c hc; rw [capWord] at hc; simp at hc
  | cons a t =>
    intro c hc
    rw [capWord] at hc
    rcases List.mem_cons.mp hc with hceq | hcm
    · exact hceq ▸ alnum_jsToUpper (h a (List.mem_cons_self _ _))
    · rcases List.mem_map.mp hcm with ⟨d, hd, rfl⟩
      exact alnum_jsToLower (h d (List.mem_cons_of_mem a hd))

theorem cleanedCamel_chars (s : JStr) : ∀ c ∈ cleanedCamel s, camelKeep c = true := by
  intro c hc
  unfold cleanedCamel at hc
  exact List.of_mem_filter (mem_jsTrim hc)

theorem camelCaseString_chars (s : JStr) : ∀ c ∈ camelCaseString s, asciiAlnum c = true := by
  intro c hc
  rw [camelCaseString] at hc
  by_cases h0 : jsTrim s = []
  · rw [if_pos h0] at hc; simp at hc
  · rw [if_neg h0] at hc
    by_cases h1 : cleanedCamel s = []
    · rw [if_pos h1] at hc; simp at hc
    · rw [if_neg h1] at hc
      rcases camelJoin_mem hc with ⟨w, hw, hcw⟩
      have hwchars : ∀ d ∈ w, asciiAlnum d = true := by
        intro d hd
        have hdm := splitOnChar_mem hw d hd
        rcases camelKeep_alnum_or_32 (cleanedCamel_chars s d hdm.1) with hal | h32
        · exact hal
        · exact absurd h32 hdm.2
      rcases hcw with hcm | hcm
      · rcases List.mem_map.mp hcm with ⟨d, hd, rfl⟩
        exact alnum_jsToLower (hwchars d hd)
      · exact capWord_chars hwchars c hcm

theorem dotCaseString_chars (s : JStr) :
    ∀ c ∈ dotCaseString s, asciiAlnum c = true ∨ c = 46 := by
  intro c hc
  rw [dotCaseString] at hc
  by_cases h0 : jsTrim s = []
  · rw [if_pos h0] at hc; simp at hc
  · rw [if_neg h0] at hc
    by_cases h1 : cleanedCamel s = []
    · rw [if_pos h1] at hc; simp at hc
    · rw [if_neg h1] at hc
      rcases joinSep_mem hc with hceq | ⟨w, hw, hcw⟩
      · exact Or.inr hceq
      · rcases List.mem_map.mp hw with ⟨u, hu, rfl⟩
        rcases List.mem_map.mp hcw with ⟨d, hd, rfl⟩
        have hdm := splitOnChar_mem hu d hd
        rcases camelKeep_alnum_or_32 (cleanedCamel_chars s d hdm.1) with hal | h32
        · exact Or.inl (alnum_jsToLower hal)
        · exact absurd h32 hdm.2

theorem camelCaseString_alnum_eq {o : JStr} (h : ∀ c ∈ o, asciiAlnum c = true) :
    camelCaseString o = o.map jsToLower := by
  cases o with
  | nil => decide
  | cons a t =>
    have hnws : ∀ c ∈ (a :: t : JStr), jsWs c = false := fun c hc => alnum_not_ws (h c hc)
    have htrim : jsTrim (a :: t) = a :: t := jsTrim_eq_self_of_all hnws
    have h0 : ¬jsTrim (a :: t) = [] := by rw [htrim]; simp
    have hcleaned : cleanedCamel (a :: t) = a :: t := by
      unfold cleanedCamel
      rw [collapseRuns_eq_self false (fun c hc => alnum_not_camelSep (h c hc)),
        List.filter_eq_self.mpr (fun c hc => alnum_camelKeep (h c hc)), htrim]
    have hsplit : splitOnChar 32 (a :: t) = [a :: t] :=
      splitOnChar_eq_single (fun c hc => alnum_ne_32 (h c hc))
    rw [camelCaseString, if_neg h0]
    simp only [hcleaned]
    rw [if_neg (by simp : ¬(a :: t : JStr) = []), hsplit]
    simp [camelJoin]

theorem cyr_not_camelKeep {c : Nat} (h : cyrLower c = true ∨ cyrUpper c = true) :
    camelKeep c = false := by
  simp only [cyrLower, cyrUpper, decide_eq_true_eq] at h
  simp only [camelKeep, asciiLetter, asciiLower, asciiUpper, digit, Bool.or_eq_false_iff,
    beq_eq_false_iff_ne, ne_eq, decide_eq_false_iff_not]
  omega

theorem ws_camelSep {c : Nat} (h : jsWs c = true) : camelSep c = true := by
  simp [camelSep, h]

theorem cleanedCamel_nil_of_cyr_ws (s : JStr)
    (h : ∀ c ∈ s, cyrLower c = true ∨ cyrUpper c = true ∨ jsWs c = true) :
    cleanedCamel s = [] := by
  unfold cleanedCamel
  rw [jsTrim_eq_nil_iff]
  intro c hc
  have hkeep := List.of_mem_filter hc
  rcases mem_collapseRuns (List.mem_of_mem_filter hc) with hc32 | ⟨hcs, hsep⟩
  · subst hc32; decide
  · exfalso
    rcases h c hcs with hcy | hcy | hcy
    · rw [cyr_not_camelKeep (Or.inl hcy)] at hkeep
      exact absurd hkeep (by simp)
    · rw [cyr_not_camelKeep (Or.inr hcy)] at hkeep
      exact absurd hkeep (by simp)
    · rw [ws_camelSep hcy] at hsep
      exact absurd hsep (by simp)

theorem camelCaseString_nil_of_cleaned {s : JStr} (h : cleanedCamel s = []) :
    camelCaseString s = [] := by
  rw [camelCaseString]
  by_cases h0 : jsTrim s = []
  · rw [if_pos h0]
  · rw [if_neg h0]
    simp [h]

theorem dotCaseString_nil_of_cleaned {s : JStr} (h : cleanedCamel s = []) :
    dotCaseString s = [] := by
  rw [dotCaseString]
  by_cases h0 : jsTrim s = []
  · rw [if_pos h0]
  · rw [if_neg h0]
    simp [h]

/-! ### snake_case lemmas -/

theorem pyWs_not_upper {c : Nat} (h : pyWs c = true) : asciiUpper c = false := by
  simp only [pyWs, decide_eq_true_eq] at h
  simp only [asciiUpper, decide_eq_false_iff_not]
  omega

theorem snakeUpperMark_eq_self : ∀ {l : JStr} (b : Bool),
    (∀ c ∈ l, asciiUpper c = false) → snakeUpperMark b l = l := by
  intro l
  induction l with
  | nil => intro b _; rfl
  | cons a t ih =>
    intro b h
    rw [snakeUpperMark, if_neg (by simp [h a (List.mem_cons_self a t)])]
    rw [ih false (fun c hc => h c (List.mem_cons_of_mem a hc))]

theorem to_snake_case_all_ws {s : JStr} (h : ∀ c ∈ s, pyWs c = true) :
    to_snake_case s = [] := by
  unfold to_snake_case
  rw [snakeUpperMark_eq_self false (fun c hc => pyWs_not_upper (h c hc))]
  cases s with
  | nil => rfl
  | cons a t =>
    rw [collapseRuns, if_pos (by simp [pySep, h a (List.mem_cons_self a t)])]
    rw [collapseRuns_all_true (fun c hc => by
      simp [pySep, h c (List.mem_cons_of_mem a hc)])]
    decide

/-! ### Claim theorems -/

/-- C1: the code evaluated at the claimed input.  The claim (and the
repository's own embedded test) expects `"item123-name"`, but the
letter–digit boundary regexes split the digits into their own token, so
the function returns `"item-123-name"`. -/
theorem claim1_kebab_item123_eval :
    toKebabCaseString (S "item123Name") = S "item-123-name" := by decide

/-- C2: the code evaluated at the claimed input.  The claim (and the
repository's own embedded test) expects `"привет-мир"`, but the
case-boundary regexes use the ASCII classes `[a-z0-9]` and `[A-Z]`, which
never match Cyrillic letters, so no boundary is inserted and the function
returns `"приветмир"`. -/
theorem claim2_kebab_cyrillic_eval :
    toKebabCaseString (S "ПриветМир") = S "приветмир" := by decide

/-- C3 counterexample: camelCase is not idempotent.  `camelCase` maps
`"hello world"` to `"helloWorld"`, but a second application lowercases the
whole word to `"helloworld"`, because the converter never splits an
existing camel boundary. -/
theorem claim3_camel_not_idempotent :
    ¬(camelCaseString (camelCaseString (S "hello world")) =
      camelCaseString (S "hello world")) := by decide

/-- C3 amended: applying camelCase to a camelCase output lowercases it as
a whole: `camelCase(camelCase(s)) = camelCase(s).toLowerCase()` for every
string `s`.  Idempotence holds exactly when the first output contains no
uppercase letter. -/
theorem claim3_camel_double_lowercases (s : JStr) :
    camelCaseString (camelCaseString s) = (camelCaseString s).map jsToLower :=
  camelCaseString_alnum_eq (camelCaseString_chars s)

/-- C4: each of the three JavaScript converters throws a TypeError with
message "Input must be a string" exactly on non-string arguments, and
returns normally (with the value of the pure string pipeline) on every
string argument. -/
theorem claim4_type_check_iff (v : JSValue) :
    (∀ s, v = JSValue.str s →
      toKebabCase v = Except.ok (toKebabCaseString s) ∧
      camelCase v = Except.ok (camelCaseString s) ∧
      dotCase v = Except.ok (dotCaseString s)) ∧
    ((∀ s, v ≠ JSValue.str s) →
      toKebabCase v = Except.error (JSError.typeError typeErrorMessage) ∧
      camelCase v = Except.error (JSError.typeError typeErrorMessage) ∧
      dotCase v = Except.error (JSError.typeError typeErrorMessage)) := by
  cases v with
  | str s =>
    constructor
    · intro s2 hs
      cases hs
      exact ⟨rfl, rfl, rfl⟩
    · intro hne
      exact absurd rfl (hne s)
  | num n => exact ⟨(fun s hs => nomatch hs), (fun _ => ⟨rfl, rfl, rfl⟩)⟩
  | boolean b => exact ⟨(fun s hs => nomatch hs), (fun _ => ⟨rfl, rfl, rfl⟩)⟩
  | nullV => exact ⟨(fun s hs => nomatch hs), (fun _ => ⟨rfl, rfl, rfl⟩)⟩
  | undefinedV => exact ⟨(fun s hs => nomatch hs), (fun _ => ⟨rfl, rfl, rfl⟩)⟩
  | object => exact ⟨(fun s hs => nomatch hs), (fun _ => ⟨rfl, rfl, rfl⟩)⟩

/-- C4 witness: the dichotomy instantiated at a string and at null. -/
theorem claim4_type_check_iff_witness :
    (toKebabCase (JSValue.str (S "foo bar")) = Except.ok (toKebabCaseString (S "foo bar")) ∧
     camelCase (JSValue.str (S "foo bar")) = Except.ok (camelCaseString (S "foo bar")) ∧
     dotCase (JSValue.str (S "foo bar")) = Except.ok (dotCaseString (S "foo bar"))) ∧
    (toKebabCase JSValue.nullV = Except.error (JSError.typeError typeErrorMessage) ∧
     camelCase JSValue.nullV = Except.error (JSError.typeError typeErrorMessage) ∧
     dotCase JSValue.nullV = Except.error (JSError.typeError typeErrorMessage)) :=
  ⟨(claim4_type_check_iff (JSValue.str (S "foo bar"))).1 (S "foo bar") rfl,
   (claim4_type_check_iff JSValue.nullV).2 (fun _ hs => nomatch hs)⟩

/-- C5: on inputs that are empty or consist solely of whitespace (in the
respective language's whitespace class), each of the four converters
returns the empty string. -/
theorem claim5_whitespace_empty (s : JStr) :
    ((∀ c ∈ s, jsWs c = true) →
      toKebabCaseString s = [] ∧ camelCaseString s = [] ∧ dotCaseString s = []) ∧
    ((∀ c ∈ s, pyWs c = true) → to_snake_case s = []) := by
  constructor
  · intro h
    have h0 : jsTrim s = [] := jsTrim_eq_nil_iff.mpr h
    refine ⟨?_, ?_, ?_⟩
    · rw [toKebabCaseString, if_pos h0]
    · rw [camelCaseString, if_pos h0]
    · rw [dotCaseString, if_pos h0]
  · intro h
    exact to_snake_case_all_ws h

/-- C5 witness: the guarantee instantiated at a one-space string. -/
theorem claim5_whitespace_empty_witness :
    (toKebabCaseString (S " ") = [] ∧ camelCaseString (S " ") = [] ∧
      dotCaseString (S " ") = []) ∧ to_snake_case (S " ") = [] :=
  ⟨(claim5_whitespace_empty (S " ")).1 (by decide),
   (claim5_whitespace_empty (S " ")).2 (by decide)⟩

/-- C6: the acronym boundary and the case boundary are both split:
`toKebabCase("XMLHttpRequest")` is `"xml-http-request"`. -/
theorem claim6_kebab_xmlhttprequest :
    toKebabCaseString (S "XMLHttpRequest") = S "xml-http-request" := by decide

/-- C7: the camelCase converter does not split an internal camel boundary:
`camelCase("fooBar")` is `"foobar"`, the whole input lowercased as one
token. -/
theorem claim7_camel_foobar : camelCaseString (S "fooBar") = S "foobar" := by decide

/-- C8 counterexample: toKebabCase is not idempotent.  On `"a@1"` the
special-character strip runs after the letter–digit splitting and glues
`a` and `1` together, so the first pass returns `"a1"`, while a second
pass splits it to `"a-1"`. -/
theorem claim8_kebab_not_idempotent :
    ¬(toKebabCaseString (toKebabCaseString (S "a@1")) = toKebabCaseString (S "a@1")) := by
  decide

/-- C8 amended: toKebabCase is idempotent on every string whose characters
are all letters, digits, whitespace, hyphens or underscores — i.e. on
every string from which the special-character strip removes nothing.  (On
other strings the strip can create new letter–digit or case adjacencies
after the splitting regexes have already run, and idempotence can fail,
e.g. at `"a@1"`.) -/
theorem claim8_kebab_idempotent_on_plain (s : JStr)
    (h : ∀ c ∈ s, kebabPlain c = true) :
    toKebabCaseString (toKebabCaseString s) = toKebabCaseString s :=
  kebab_double s h

/-- C8 witness: idempotence instantiated at a plain mixed-case input. -/
theorem claim8_kebab_idempotent_on_plain_witness :
    toKebabCaseString (toKebabCaseString (S "My-Component Name")) =
      toKebabCaseString (S "My-Component Name") :=
  claim8_kebab_idempotent_on_plain (S "My-Component Name") (by decide)

/-- C9: camelCase outputs contain only ASCII alphanumerics, dotCase
outputs only ASCII alphanumerics and dots, and an input consisting solely
of non-ASCII (Cyrillic) letters and whitespace is mapped to the empty
string by both converters, because the cleanup deletes every character
outside `[a-zA-Z0-9 ]`. -/
theorem claim9_ascii_only_outputs (s : JStr) :
    (∀ c ∈ camelCaseString s, asciiAlnum c = true) ∧
    (∀ c ∈ dotCaseString s, asciiAlnum c = true ∨ c = 46) ∧
    ((∀ c ∈ s, cyrLower c = true ∨ cyrUpper c = true ∨ jsWs c = true) →
      camelCaseString s = [] ∧ dotCaseString s = []) := by
  refine ⟨camelCaseString_chars s, dotCaseString_chars s, fun h => ?_⟩
  have hcl := cleanedCamel_nil_of_cyr_ws s h
  exact ⟨camelCaseString_nil_of_cleaned hcl, dotCaseString_nil_of_cleaned hcl⟩

/-- C9 witness: the all-Cyrillic input of the claim. -/
theorem claim9_ascii_only_outputs_witness :
    camelCaseString (S "Привет Мир") = [] ∧ dotCaseString (S "Привет Мир") = [] :=
  (claim9_ascii_only_outputs (S "Привет Мир")).2.2 (by decide)

/-- C10: toKebabCase does not treat `.` as a separator — the dot is
deleted by the special-character strip without leaving a boundary, so two
lowercase words joined by a dot merge into one token — whereas camelCase
and dotCase list `.` in their separator class and split there. -/
theorem claim10_dot_separator_policy (w1 w2 : JStr) (h1 : w1 ≠ []) (h2 : w2 ≠ [])
    (a1 : ∀ c ∈ w1, asciiLower c = true) (a2 : ∀ c ∈ w2, asciiLower c = true) :
    toKebabCaseString (w1 ++ 46 :: w2) = w1 ++ w2 ∧
    camelCaseString (w1 ++ 46 :: w2) = w1 ++ capWord w2 ∧
    dotCaseString (w1 ++ 46 :: w2) = w1 ++ 46 :: w2 := by
  have hlow_lowAl : ∀ {c : Nat}, asciiLower c = true → lowAl c = true := by
    intro c hc; simp [lowAl, hc]
  have hlow_alnum : ∀ {c : Nat}, asciiLower c = true → asciiAlnum c = true := by
    intro c hc; simp [asciiAlnum, asciiLetter, hc]
  have hmem : ∀ c ∈ w1 ++ 46 :: w2, asciiLower c = true ∨ c = 46 := by
    intro c hc
    rcases List.mem_append.mp hc with hc | hc
    · exact Or.inl (a1 c hc)
    · rcases List.mem_cons.mp hc with hceq | hc
      · exact Or.inr hceq
      · exact Or.inl (a2 c hc)
  have htrim : ¬jsTrim (w1 ++ 46 :: w2) = [] := by
    intro habs
    rw [jsTrim_eq_nil_iff] at habs
    have h46 : (46 : Nat) ∈ w1 ++ 46 :: w2 :=
      List.mem_append_right _ (List.mem_cons_self _ _)
    exact absurd (habs 46 h46) (by decide)
  -- shared camelCase/dotCase cleanup facts
  have hcol : collapseRuns camelSep 32 false (w1 ++ 46 :: w2) = w1 ++ 32 :: w2 := by
    rw [collapseRuns_append _ (fun c hc => alnum_not_camelSep (hlow_alnum (a1 c hc)))]
    rw [collapseRuns, if_pos (by decide : camelSep 46 = true)]
    have hw2 : collapseRuns camelSep 32 true w2 = w2 := by
      rw [collapseRuns_head_not
        (fun c hc => alnum_not_camelSep (hlow_alnum (a2 c (head?_mem hc)))) true false]
      exact collapseRuns_eq_self false
        (fun c hc => alnum_not_camelSep (hlow_alnum (a2 c hc)))
    simp [hw2]
  have hfil : List.filter camelKeep (w1 ++ 32 :: w2) = w1 ++ 32 :: w2 := by
    rw [List.filter_eq_self]
    intro c hc
    rcases List.mem_append.mp hc with hc | hc
    · exact alnum_camelKeep (hlow_alnum (a1 c hc))
    · rcases List.mem_cons.mp hc with hceq | hc
      · subst hceq; decide
      · exact alnum_camelKeep (hlow_alnum (a2 c hc))
  have htr2 : jsTrim (w1 ++ 32 :: w2) = w1 ++ 32 :: w2 := by
    refine jsTrim_eq_self ?_ ?_
    · intro c hc
      rw [List.head?_append_of_ne_nil _ h1] at hc
      exact lowAl_not_ws (hlow_lowAl (a1 c (head?_mem hc)))
    · intro c hc
      rw [List.getLast?_append_of_ne_nil _ (by simp : (32 :: w2 : JStr) ≠ [])] at hc
      have hc2 : ([32] ++ w2 : JStr).getLast? = some c := hc
      rw [List.getLast?_append_of_ne_nil _ h2] at hc2
      exact lowAl_not_ws (hlow_lowAl (a2 c (List.mem_of_getLast?_eq_some hc2)))
  have hcleaned : cleanedCamel (w1 ++ 46 :: w2) = w1 ++ 32 :: w2 := by
    unfold cleanedCamel
    rw [hcol, hfil, htr2]
  have hclne : ¬(w1 ++ 32 :: w2 : JStr) = [] := by
    cases w1 with
    | nil => exact absurd rfl h1
    | cons a t => simp
  have hsplit : splitOnChar 32 (w1 ++ 32 :: w2) = [w1, w2] := by
    rw [splitOnChar_append _ (fun c hc => alnum_ne_32 (hlow_alnum (a1 c hc))),
      splitOnChar_eq_single (fun c hc => alnum_ne_32 (hlow_alnum (a2 c hc)))]
  have em1 : w1.map jsToLower = w1 :=
    map_eq_self (fun c hc => jsToLower_fix (hlow_lowAl (a1 c hc)))
  have em2 : w2.map jsToLower = w2 :=
    map_eq_self (fun c hc => jsToLower_fix (hlow_lowAl (a2 c hc)))
  refine ⟨?_, ?_, ?_⟩
  · -- kebab: the dot is stripped, no boundary appears
    have hnosep : ∀ c ∈ w1 ++ 46 :: w2, kebabSep c = false := by
      intro c hc
      rcases hmem c hc with hc2 | hc2
      · exact lowAl_not_kebabSep (hlow_lowAl hc2)
      · subst hc2; decide
    have hnoup : ∀ c ∈ w1 ++ 46 :: w2, asciiUpper c = false := by
      intro c hc
      rcases hmem c hc with hc2 | hc2
      · exact lowAl_not_upper (hlow_lowAl hc2)
      · subst hc2; decide
    have hnodig : ∀ c ∈ w1 ++ 46 :: w2, digit c = false := by
      intro c hc
      rcases hmem c hc with hc2 | hc2
      · simp only [asciiLower, decide_eq_true_eq] at hc2
        simp only [digit, decide_eq_false_iff_not]
        omega
      · subst hc2; decide
    have e1 : collapseRuns kebabSep 32 false (w1 ++ 46 :: w2) = w1 ++ 46 :: w2 :=
      collapseRuns_eq_self false hnosep
    have e2 : insPair lowerDigit asciiUpper (w1 ++ 46 :: w2) = w1 ++ 46 :: w2 :=
      insPair_eq_self_q _ _ _ hnoup
    have e3 : insAcronym (w1 ++ 46 :: w2) = w1 ++ 46 :: w2 := insAcronym_eq_self _ hnoup
    have e4 : insPair asciiLetter digit (w1 ++ 46 :: w2) = w1 ++ 46 :: w2 :=
      insPair_eq_self_q _ _ _ hnodig
    have e5 : insPair digit asciiLetter (w1 ++ 46 :: w2) = w1 ++ 46 :: w2 :=
      insPair_eq_self_p _ _ _ hnodig
    have h46keep : kebabKeep 46 = false := by decide
    have ef : List.filter kebabKeep (w1 ++ 46 :: w2) = w1 ++ w2 := by
      rw [List.filter_append,
        List.filter_eq_self.mpr (fun c hc => lowAl_kebabKeep (hlow_lowAl (a1 c hc))),
        List.filter_cons]
      simp only [h46keep]
      rw [List.filter_eq_self.mpr (fun c hc => lowAl_kebabKeep (hlow_lowAl (a2 c hc)))]
      simp
    have hw12ne : w1 ++ w2 ≠ [] := by
      cases w1 with
      | nil => exact absurd rfl h1
      | cons a t => simp
    have hw12nws : ∀ c ∈ w1 ++ w2, jsWs c = false := by
      intro c hc
      rcases List.mem_append.mp hc with hc | hc
      · exact lowAl_not_ws (hlow_lowAl (a1 c hc))
      · exact lowAl_not_ws (hlow_lowAl (a2 c hc))
    have et : wsTokens (w1 ++ w2) = [w1 ++ w2] := wsTokens_single hw12ne hw12nws
    have em : (w1 ++ w2).map jsToLower = w1 ++ w2 := by
      refine map_eq_self ?_
      intro c hc
      rcases List.mem_append.mp hc with hc | hc
      · exact jsToLower_fix (hlow_lowAl (a1 c hc))
      · exact jsToLower_fix (hlow_lowAl (a2 c hc))
    rw [toKebabCaseString, if_neg htrim]
    simp only [e1, e2, e3, e4, e5, ef, et]
    exact em
  · -- camelCase: the dot is a separator, the second word is capitalized
    rw [camelCaseString, if_neg htrim]
    simp only [hcleaned]
    rw [if_neg hclne, hsplit]
    simp [camelJoin, em1]
  · -- dotCase: the dot is a separator and the joiner
    rw [dotCaseString, if_neg htrim]
    simp only [hcleaned]
    rw [if_neg hclne, hsplit]
    simp only [List.map_cons, List.map_nil, em1, em2]
    rfl

/-- C10 witness: the policy at `"hello.world"`. -/
theorem claim10_dot_separator_policy_witness :
    toKebabCaseString (S "hello" ++ 46 :: S "world") = S "hello" ++ S "world" ∧
    camelCaseString (S "hello" ++ 46 :: S "world") = S "hello" ++ capWord (S "world") ∧
    dotCaseString (S "hello" ++ 46 :: S "world") = S "hello" ++ 46 :: S "world" :=
  claim10_dot_separator_policy (S "hello") (S "world") (by decide) (by decide)
    (by decide) (by decide)
